import Mathlib

/-!
Verification development for the `exchange-mail-cli-client` repository.

The component under study is `html_converter.py`: the class
`HTMLToTextConverter` with its static methods `convert`,
`_process_headings`, `_process_lists`, `_process_tables`,
`_process_links`, `_process_paragraphs`, `_finalize_formatting`
and `extract_attachments_info`.

The embedding below translates that module into Lean:
* the BeautifulSoup document tree becomes the mutual inductive
  `Node` / `Forest`;
* each rewrite pass (`find_all` + `replace_with` / `decompose`
  iteration) becomes a top-down rewrite `rwF` driven by a per-element
  rule.  Document-order iteration over a pre-collected `find_all`
  list together with in-place mutation is reproduced by a top-down
  rewrite on every run that completes, because an element detached by
  the replacement of an outer element no longer contributes to the
  document and its own replacement has no observable effect.  The one
  divergence is the error path of `_process_links`: `decompose()` of
  an anchor destroys every collected anchor inside it (bs4 clears each
  descendant's `__dict__`), and the later `link["href"]` subscript on
  a destroyed anchor raises `TypeError`, which the crash-free rewrite
  collapses to silent removal; that error condition is modelled
  separately by `_process_links_raises`;
* Python string primitives (`str.strip`, `str.upper`, `str.lower`,
  `str.replace`, `" | ".join`, substring `in`) are modelled on
  `List Char`;
* the two `re.sub` calls and the line-splitting of
  `_finalize_formatting` are modelled by direct recursive functions
  with the same semantics as the regexes on the relevant inputs;
* the external collaborators `html.unescape` and
  `BeautifulSoup(_, "html.parser")` are modelled by `pyunescape`
  (restricted to the named/numeric character references exercised in
  this development) and by the permissive tokenizer/tree-builder
  `parseHTML` (which, like the `html.parser` builder, decodes
  character references in text and attribute values, lower-cases tag
  and attribute names, closes void elements immediately, and closes
  all still-open elements at end of input).
-/

/-! ## Python string primitives -/

/-- The whitespace characters recognised by Python's `str.strip()` and by
the regex class `\s` (restricted to ASCII, which is all this code base
produces). -/
def isPySpace (c : Char) : Bool :=
  c = ' ' || c = '\t' || c = '\n' || c = '\r' || c = '\x0b' || c = '\x0c'

/-- Python `str.strip()` on a character list. -/
def pystripCl (l : List Char) : List Char :=
  ((l.dropWhile isPySpace).reverse.dropWhile isPySpace).reverse

/-- Python `str.strip()`. -/
def strip (s : String) : String := String.mk (pystripCl s.toList)

/-- Python `str.upper()` per character (ASCII letters and the Cyrillic
range used by this code base). -/
def pyToUpper (c : Char) : Char :=
  if 'a' ≤ c ∧ c ≤ 'z' then Char.ofNat (c.toNat - 32)
  else if 'а' ≤ c ∧ c ≤ 'я' then Char.ofNat (c.toNat - 32)
  else if c = 'ё' then 'Ё'
  else c

/-- Python `str.lower()` per character (ASCII letters and the Cyrillic
range used by this code base). -/
def pyToLower (c : Char) : Char :=
  if 'A' ≤ c ∧ c ≤ 'Z' then Char.ofNat (c.toNat + 32)
  else if 'А' ≤ c ∧ c ≤ 'Я' then Char.ofNat (c.toNat + 32)
  else if c = 'Ё' then 'ё'
  else c

/-- Python `str.upper()`. -/
def upper (s : String) : String := String.mk (s.toList.map pyToUpper)

/-- Python `str.lower()`. -/
def lower (s : String) : String := String.mk (s.toList.map pyToLower)

/-- Python substring test `needle in hay` on character lists. -/
def containsSubCl (needle : List Char) : List Char → Bool
  | [] => needle.isEmpty
  | c :: rest => needle.isPrefixOf (c :: rest) || containsSubCl needle rest

/-- Python substring test `needle in hay`. -/
def containsSub (needle hay : String) : Bool :=
  containsSubCl needle.toList hay.toList

/-! ## The external `html.unescape`

`convert` calls `html.unescape` on the raw input before parsing.  The
model below handles the named references `&amp;` `&lt;` `&gt;`
`&quot;` `&apos;` and the numeric reference `&#39;`; other ampersands
pass through literally, and — like `html.unescape` — the replacement
text is not rescanned, so `&amp;amp;` decodes to `&amp;`. -/

def unescapeStep (rest : List Char) : Option (Char × List Char) :=
  if ['a','m','p',';'].isPrefixOf rest then some ('&', rest.drop 4)
  else if ['l','t',';'].isPrefixOf rest then some ('<', rest.drop 3)
  else if ['g','t',';'].isPrefixOf rest then some ('>', rest.drop 3)
  else if ['q','u','o','t',';'].isPrefixOf rest then some ('"', rest.drop 5)
  else if ['a','p','o','s',';'].isPrefixOf rest then some ('\'', rest.drop 5)
  else if ['#','3','9',';'].isPrefixOf rest then some ('\'', rest.drop 4)
  else none

def unescapeAux : Nat → List Char → List Char
  | 0, cs => cs
  | _ + 1, [] => []
  | fuel + 1, '&' :: rest =>
    match unescapeStep rest with
    | some (c, rest') => c :: unescapeAux fuel rest'
    | none => '&' :: unescapeAux fuel rest
  | fuel + 1, c :: rest => c :: unescapeAux fuel rest

def unescapeL (cs : List Char) : List Char := unescapeAux cs.length cs

/-- Model of `html.unescape` (see section comment). -/
def pyunescape (s : String) : String := String.mk (unescapeL s.toList)

/-! ## The document tree -/

mutual
/-- A node of the parsed document: either a text node
(`NavigableString`) or an element (`Tag`) with a tag name, attributes,
and children. -/
inductive Node where
  | text (s : String) : Node
  | elem (tag : String) (attrs : List (String × String)) (children : Forest) : Node
deriving Repr

/-- An ordered sequence of sibling nodes. -/
inductive Forest where
  | nil : Forest
  | cons (hd : Node) (tl : Forest) : Forest
deriving Repr
end

def Forest.ofList : List Node → Forest
  | [] => Forest.nil
  | n :: ns => Forest.cons n (Forest.ofList ns)

def Forest.toList : Forest → List Node
  | Forest.nil => []
  | Forest.cons n ns => n :: Forest.toList ns

mutual
/-- BeautifulSoup `node.get_text()`: concatenation of all text content
of the subtree, in document order. -/
def getTextN : Node → String
  | Node.text s => s
  | Node.elem _ _ cs => getTextF cs

def getTextF : Forest → String
  | Forest.nil => ""
  | Forest.cons n ns => getTextN n ++ getTextF ns
end

mutual
/-- BeautifulSoup `find_all(tags)` restricted to one node: the node
itself if its tag is in `tags`, followed by all matching descendants,
in document (pre-) order. -/
def findAllN (tags : List String) : Node → List Node
  | Node.text _ => []
  | Node.elem t a cs =>
    (if t ∈ tags then [Node.elem t a cs] else []) ++ findAllF tags cs

/-- BeautifulSoup `soup.find_all(tags)` over a forest: all elements of
the forest whose tag is in `tags`, in document (pre-) order. -/
def findAllF (tags : List String) : Forest → List Node
  | Forest.nil => []
  | Forest.cons n ns => findAllN tags n ++ findAllF tags ns
end

/-- The attribute value `n[name]`, when `n` is an element carrying the
attribute. -/
def attrOf (n : Node) (name : String) : Option String :=
  match n with
  | Node.text _ => none
  | Node.elem _ attrs _ => List.lookup name attrs

/-- The children of a node (empty for a text node). -/
def childrenOf (n : Node) : Forest :=
  match n with
  | Node.text _ => Forest.nil
  | Node.elem _ _ cs => cs

/-! ## Rewrite passes

Each pass of `convert` iterates `find_all` results and either calls
`replace_with(text)`, calls `decompose()`, or leaves the element in
place.  `Rw` is the outcome of the per-element decision and `rwF` is
the corresponding top-down rewrite of the whole tree (see the header
comment for why top-down rewriting models the Python iteration). -/

inductive Rw where
  | repl (s : String) : Rw
  | remove : Rw
  | keep : Rw
deriving Repr, DecidableEq

mutual
def rwN (rule : Node → Rw) : Node → Node
  | Node.text s => Node.text s
  | Node.elem t a cs => Node.elem t a (rwF rule cs)

def rwF (rule : Node → Rw) : Forest → Forest
  | Forest.nil => Forest.nil
  | Forest.cons n ns =>
    match rule n with
    | Rw.repl s => Forest.cons (Node.text s) (rwF rule ns)
    | Rw.remove => rwF rule ns
    | Rw.keep => Forest.cons (rwN rule n) (rwF rule ns)
end

/-! ## Per-element rules of the rewrite passes (from `html_converter.py`) -/

/-- `heading_map` of `_process_headings`, in its (insertion-ordered)
iteration order. -/
def heading_map : List (String × String) :=
  [("h1", "====== "), ("h2", "===== "), ("h3", "==== "),
   ("h4", "=== "), ("h5", "== "), ("h6", "= ")]

/-- Python `prefix.replace(" ", "=")` (applied to heading prefixes). -/
def replaceSpaceByEq (s : String) : String :=
  String.mk (s.toList.map fun c => if c = ' ' then '=' else c)

/-- One heading tag of `_process_headings`: a heading with non-empty
stripped text is replaced with
`f"\n\n{prefix}{heading_text.upper()}\n{prefix.replace(' ', '=')}\n"`;
a heading with empty stripped text is left in place (the source has no
`else` branch for it). -/
def headingRule (tag pref : String) (n : Node) : Rw :=
  match n with
  | Node.elem t _ cs =>
    if t = tag then
      let heading_text := strip (getTextF cs)
      if heading_text = "" then Rw.keep
      else Rw.repl ("\n\n" ++ pref ++ upper heading_text ++ "\n" ++
                    replaceSpaceByEq pref ++ "\n")
    else Rw.keep
  | Node.text _ => Rw.keep

/-- `_process_headings`: the per-tag rewrites run in `heading_map`
order. -/
def _process_headings (soup : Forest) : Forest :=
  heading_map.foldl (fun acc p => rwF (headingRule p.1 p.2) acc) soup

/-- The `list_items` built for an unordered list from
`ul.find_all("li")`: each item's stripped text, kept when non-empty,
rendered `f"  • {item_text}"`. -/
def ulItems (lis : List Node) : List String :=
  lis.filterMap fun li =>
    let item_text := strip (getTextN li)
    if item_text = "" then none else some ("  • " ++ item_text)

/-- The `list_items` built for an ordered list from
`enumerate(ol.find_all("li"), 1)`: every `li` receives an index from
the running enumeration, and an item is rendered
`f"  {i}. {item_text}"` only when its stripped text is non-empty. -/
def olItems (lis : List Node) : List String :=
  (List.enumFrom 1 lis).filterMap fun p =>
    let item_text := strip (getTextN p.2)
    if item_text = "" then none else some ("  " ++ toString p.1 ++ ". " ++ item_text)

/-- The `ul` branch of `_process_lists`: replace with
`"\n" + "\n".join(list_items) + "\n"` when some item is non-empty,
otherwise `decompose()`. -/
def ulRule (n : Node) : Rw :=
  match n with
  | Node.elem t _ cs =>
    if t = "ul" then
      let list_items := ulItems (findAllF ["li"] cs)
      if list_items = [] then Rw.remove
      else Rw.repl ("\n" ++ String.intercalate "\n" list_items ++ "\n")
    else Rw.keep
  | Node.text _ => Rw.keep

/-- The `ol` branch of `_process_lists`, same shape with numbered
items. -/
def olRule (n : Node) : Rw :=
  match n with
  | Node.elem t _ cs =>
    if t = "ol" then
      let list_items := olItems (findAllF ["li"] cs)
      if list_items = [] then Rw.remove
      else Rw.repl ("\n" ++ String.intercalate "\n" list_items ++ "\n")
    else Rw.keep
  | Node.text _ => Rw.keep

/-- `_process_lists`: unordered lists first, then ordered lists. -/
def _process_lists (soup : Forest) : Forest :=
  rwF olRule (rwF ulRule soup)

/-- The rows computed by `_process_tables` for one table: for each
`tr`, every `td`/`th` cell's stripped text is appended to `row_cells`
unconditionally, and the row is kept (joined with `" | "`) whenever
`row_cells` is non-empty as a list, i.e. whenever the row has at least
one cell, regardless of the cells' text. -/
def tableRows (cs : Forest) : List String :=
  (findAllF ["tr"] cs).filterMap fun tr =>
    let row_cells := (findAllF ["td", "th"] (childrenOf tr)).map
      fun cell => strip (getTextN cell)
    if row_cells = [] then none
    else some (String.intercalate " | " row_cells)

/-- The per-table decision of `_process_tables`: replace with
`f"\n{table_content}\n"` (rows joined by newlines, each prefixed with
two spaces) when `rows` is non-empty, otherwise `decompose()`. -/
def tableRule (n : Node) : Rw :=
  match n with
  | Node.elem t _ cs =>
    if t = "table" then
      let rows := tableRows cs
      if rows = [] then Rw.remove
      else Rw.repl ("\n" ++
        String.intercalate "\n" (rows.map fun row => "  " ++ row) ++ "\n")
    else Rw.keep
  | Node.text _ => Rw.keep

def _process_tables (soup : Forest) : Forest := rwF tableRule soup

/-- The per-anchor decision of `_process_links`, for anchors carrying
an `href` attribute (`find_all("a", href=True)`). -/
def linkRule (n : Node) : Rw :=
  match n with
  | Node.elem t attrs cs =>
    if t = "a" then
      match List.lookup "href" attrs with
      | none => Rw.keep
      | some h =>
        let link_text := strip (getTextF cs)
        let link_url := strip h
        if link_text ≠ "" ∧ link_url ≠ "" then
          if link_text ≠ link_url then
            Rw.repl (link_text ++ " [" ++ link_url ++ "]")
          else Rw.repl link_url
        else if link_text ≠ "" then Rw.repl link_text
        else if link_url ≠ "" then Rw.repl link_url
        else Rw.remove
    else Rw.keep
  | Node.text _ => Rw.keep

/-- `_process_links` as the crash-free rewrite; the pass's error path
(`link["href"]` on an anchor destroyed by an enclosing collected
anchor's `decompose()`) is modelled separately by
`_process_links_raises` below. -/
def _process_links (soup : Forest) : Forest := rwF linkRule soup

/-- `<br>` elements become literal newlines. -/
def brRule (n : Node) : Rw :=
  match n with
  | Node.elem t _ _ => if t = "br" then Rw.repl "\n" else Rw.keep
  | Node.text _ => Rw.keep

/-- Paragraphs: non-empty stripped text is wrapped `f"\n{p_text}\n"`;
empty paragraphs are `decompose()`d. -/
def pRule (n : Node) : Rw :=
  match n with
  | Node.elem t _ cs =>
    if t = "p" then
      let p_text := strip (getTextF cs)
      if p_text ≠ "" then Rw.repl ("\n" ++ p_text ++ "\n") else Rw.remove
    else Rw.keep
  | Node.text _ => Rw.keep

/-- The tag list checked against `child.name` in the `div` branch of
`_process_paragraphs`. -/
def handledTags : List String :=
  ["p", "h1", "h2", "h3", "h4", "h5", "h6", "ul", "ol", "table"]

/-- `any(child.name in [...] for child in div.children)`: text children
have `name == None` and never match. -/
def hasHandledChild : Forest → Bool
  | Forest.nil => false
  | Forest.cons (Node.text _) ns => hasHandledChild ns
  | Forest.cons (Node.elem t _ _) ns => t ∈ handledTags || hasHandledChild ns

/-- The `div` branch of `_process_paragraphs`: a `div` with non-empty
stripped text and no direct child whose tag is in `handledTags` is
replaced with `f"\n{div_text}\n"`; otherwise it is left in place. -/
def divRule (n : Node) : Rw :=
  match n with
  | Node.elem t _ cs =>
    if t = "div" then
      let div_text := strip (getTextF cs)
      if div_text = "" then Rw.keep
      else if hasHandledChild cs then Rw.keep
      else Rw.repl ("\n" ++ div_text ++ "\n")
    else Rw.keep
  | Node.text _ => Rw.keep

/-- `_process_paragraphs`: `br`, then `p`, then `div`. -/
def _process_paragraphs (soup : Forest) : Forest :=
  rwF divRule (rwF pRule (rwF brRule soup))

/-- The initial `soup(["script", "style", "meta", "link"])` removal:
each such element is `decompose()`d with its entire subtree. -/
def unwantedRule (n : Node) : Rw :=
  match n with
  | Node.elem t _ _ =>
    if t ∈ ["script", "style", "meta", "link"] then Rw.remove else Rw.keep
  | Node.text _ => Rw.keep

/-! ## `_finalize_formatting`

The three normalisation steps of `_finalize_formatting`, on character
lists:

* `re.sub(r"\n\s*\n\s*\n", "\n\n", text)`: the pattern matches, at a
  newline, any contiguous whitespace span containing at least three
  newlines, and — with Python's leftmost/greedy semantics — consumes
  it exactly up to the span's last newline; the match is replaced by
  two newlines and scanning resumes after it;
* `re.sub(r"[ ]{2,}", " ", text)`: every maximal run of two or more
  space characters collapses to one space;
* `"\n".join(line.strip() for line in text.split("\n"))` and a final
  `text.strip()`. -/

/-- The contiguous whitespace span at the current position. -/
def wsSpan (cs : List Char) : List Char := cs.takeWhile isPySpace

/-- Whether `re.sub(r"\n\s*\n\s*\n", ...)` matches at the current
position: the position holds a newline and the whitespace span from it
contains at least three newlines. -/
def nlMatch (cs : List Char) : Bool :=
  match cs with
  | c :: _ => c == '\n' && decide (3 ≤ (wsSpan cs).count '\n')
  | [] => false

/-- How many characters the (greedy) match consumes: up to and
including the last newline of the whitespace span. -/
def nlConsumed (cs : List Char) : Nat :=
  (wsSpan cs).length - ((wsSpan cs).reverse.takeWhile (fun c => c ≠ '\n')).length

def collapseNLAux : Nat → List Char → List Char
  | 0, cs => cs
  | _ + 1, [] => []
  | fuel + 1, c :: rest =>
    if nlMatch (c :: rest) then
      '\n' :: '\n' :: collapseNLAux fuel ((c :: rest).drop (nlConsumed (c :: rest)))
    else
      c :: collapseNLAux fuel rest

/-- `re.sub(r"\n\s*\n\s*\n", "\n\n", text)`. -/
def collapseNL (cs : List Char) : List Char := collapseNLAux cs.length cs

def collapseSpacesAux : Bool → List Char → List Char
  | _, [] => []
  | prevSpace, c :: rest =>
    if c = ' ' then
      if prevSpace then collapseSpacesAux true rest
      else ' ' :: collapseSpacesAux true rest
    else c :: collapseSpacesAux false rest

/-- `re.sub(r"[ ]{2,}", " ", text)`: collapse every run of spaces to a
single space (runs of length one are unchanged). -/
def collapseSpaces (cs : List Char) : List Char := collapseSpacesAux false cs

/-- Python `text.split("\n")` (always returns at least one line). -/
def splitLinesCl : List Char → List (List Char)
  | [] => [[]]
  | c :: rest =>
    if c = '\n' then [] :: splitLinesCl rest
    else
      match splitLinesCl rest with
      | [] => [[c]]
      | l :: ls => (c :: l) :: ls

/-- Python `"\n".join(lines)`. -/
def joinLinesCl : List (List Char) → List Char
  | [] => []
  | [l] => l
  | l :: ls => l ++ '\n' :: joinLinesCl ls

/-- `_finalize_formatting` from `html_converter.py`. -/
def _finalize_formatting (text : String) : String :=
  let cs := collapseNL text.toList
  let cs := collapseSpaces cs
  let cs := joinLinesCl ((splitLinesCl cs).map pystripCl)
  String.mk (pystripCl cs)

/-! ## The external parser (`BeautifulSoup(_, "html.parser")`)

A permissive tokenizer and tree builder with the behaviour of the
`html.parser` tree builder on the inputs this development exercises:
tag and attribute names are lower-cased, character references in text
runs and attribute values are decoded, void elements (`br`, `meta`,
`link`, ...) never take children, a close tag pops to the nearest
matching open element and is ignored when none exists, and every
element still open at end of input is closed there (so unclosed markup
parses without error). -/

inductive Tok where
  | textTok (s : String) : Tok
  | topen (tag : String) (attrs : List (String × String)) : Tok
  | tclose (tag : String) : Tok
deriving Repr

def isTagNameChar (c : Char) : Bool := c.isAlphanum || c = '-' || c = ':'

def isAttrNameChar (c : Char) : Bool :=
  !(isPySpace c) && c ≠ '=' && c ≠ '>' && c ≠ '/'

def lowerL (cs : List Char) : String := String.mk (cs.map pyToLower)

/-- Parse the attribute region of a start tag; returns the attributes,
whether the tag was self-closing, and the input after the closing
`>`. -/
def parseAttrsAux : Nat → List Char → (List (String × String) × Bool × List Char)
  | 0, cs => ([], false, cs)
  | fuel + 1, cs0 =>
    match cs0.dropWhile isPySpace with
    | [] => ([], false, [])
    | '>' :: r => ([], false, r)
    | '/' :: r =>
      (match r.dropWhile isPySpace with
       | '>' :: r2 => ([], true, r2)
       | _ => parseAttrsAux fuel r)
    | c :: r =>
      let name := (c :: r).takeWhile isAttrNameChar
      if name = [] then parseAttrsAux fuel r
      else
        let rest1 := (c :: r).dropWhile isAttrNameChar
        match rest1.dropWhile isPySpace with
        | '=' :: r2 =>
          match r2.dropWhile isPySpace with
          | '"' :: r3 =>
            let v := r3.takeWhile (fun x => x ≠ '"')
            let r4 := match r3.dropWhile (fun x => x ≠ '"') with
                      | _ :: t => t
                      | [] => []
            let res := parseAttrsAux fuel r4
            ((lowerL name, String.mk (unescapeL v)) :: res.1, res.2)
          | '\'' :: r3 =>
            let v := r3.takeWhile (fun x => x ≠ '\'')
            let r4 := match r3.dropWhile (fun x => x ≠ '\'') with
                      | _ :: t => t
                      | [] => []
            let res := parseAttrsAux fuel r4
            ((lowerL name, String.mk (unescapeL v)) :: res.1, res.2)
          | r3 =>
            let v := r3.takeWhile (fun x => !(isPySpace x) && x ≠ '>')
            let r4 := r3.dropWhile (fun x => !(isPySpace x) && x ≠ '>')
            let res := parseAttrsAux fuel r4
            ((lowerL name, String.mk (unescapeL v)) :: res.1, res.2)
        | rest2 =>
          let res := parseAttrsAux fuel rest2
          ((lowerL name, "") :: res.1, res.2)

def tokenizeAux : Nat → List Char → List Tok
  | 0, _ => []
  | _ + 1, [] => []
  | fuel + 1, '<' :: rest =>
    match rest with
    | '/' :: r2 =>
      let name := r2.takeWhile isTagNameChar
      let r3 := (r2.dropWhile isTagNameChar).dropWhile (fun x => x ≠ '>')
      let r4 := match r3 with
                | _ :: t => t
                | [] => []
      Tok.tclose (lowerL name) :: tokenizeAux fuel r4
    | '!' :: r2 =>
      let r3 := r2.dropWhile (fun x => x ≠ '>')
      let r4 := match r3 with
                | _ :: t => t
                | [] => []
      tokenizeAux fuel r4
    | c :: r2 =>
      if c.isAlpha then
        let name := (c :: r2).takeWhile isTagNameChar
        let rest1 := (c :: r2).dropWhile isTagNameChar
        let res := parseAttrsAux (rest1.length + 1) rest1
        let tname := lowerL name
        if res.2.1 then
          Tok.topen tname res.1 :: Tok.tclose tname :: tokenizeAux fuel res.2.2
        else
          Tok.topen tname res.1 :: tokenizeAux fuel res.2.2
      else
        Tok.textTok "<" :: tokenizeAux fuel rest
    | [] => [Tok.textTok "<"]
  | fuel + 1, cs =>
    let run := cs.takeWhile (fun x => x ≠ '<')
    Tok.textTok (String.mk (unescapeL run)) ::
      tokenizeAux fuel (cs.dropWhile (fun x => x ≠ '<'))

def tokenize (s : String) : List Tok := tokenizeAux s.toList.length s.toList

/-- The HTML void elements, which the tree builder closes
immediately. -/
def voidTags : List String :=
  ["area", "base", "br", "col", "embed", "hr", "img", "input",
   "link", "meta", "source", "track", "wbr"]

/-- A frame of the builder's open-element stack: tag, attributes, and
the elder siblings (in reverse) of the element being built. -/
abbrev Frame := String × List (String × String) × List Node

/-- Close every still-open element (end of input). -/
def unwindStack : List Frame → List Node → List Node
  | [], acc => acc.reverse
  | (t, a, pacc) :: s, acc =>
    unwindStack s (Node.elem t a (Forest.ofList acc.reverse) :: pacc)

/-- Pop open elements up to and including the nearest one with the
given tag. -/
def popTo (target : String) : List Frame → List Node → (List Frame × List Node)
  | [], acc => ([], acc)
  | (t, a, pacc) :: s, acc =>
    let node := Node.elem t a (Forest.ofList acc.reverse)
    if t = target then (s, node :: pacc)
    else popTo target s (node :: pacc)

def buildTree : List Tok → List Frame → List Node → List Node
  | [], stack, acc => unwindStack stack acc
  | Tok.textTok s :: rest, stack, acc =>
    buildTree rest stack (Node.text s :: acc)
  | Tok.topen t a :: rest, stack, acc =>
    if t ∈ voidTags then buildTree rest stack (Node.elem t a Forest.nil :: acc)
    else buildTree rest ((t, a, acc) :: stack) []
  | Tok.tclose t :: rest, stack, acc =>
    if stack.any (fun f => f.1 = t) then
      let res := popTo t stack acc
      buildTree rest res.1 res.2
    else buildTree rest stack acc

/-- Model of `BeautifulSoup(s, "html.parser")` (see section
comment). -/
def parseHTML (s : String) : Forest :=
  Forest.ofList (buildTree (tokenize s) [] [])

/-! ## The two public operations -/

/-- `HTMLToTextConverter.convert` from `html_converter.py`.  `None`
input is modelled as `none`; `if not html_content` is the `none`/empty
guard.  This models the non-raising executions; the condition under
which the real `convert` raises is `_process_links_raises` below. -/
def convert (html_content : Option String) : String :=
  match html_content with
  | none => ""
  | some s =>
    if s = "" then ""
    else
      let cleaned_html := pyunescape s
      let soup0 := parseHTML cleaned_html
      let soup1 := rwF unwantedRule soup0
      let soup2 := _process_headings soup1
      let soup3 := _process_lists soup2
      let soup4 := _process_tables soup3
      let soup5 := _process_links soup4
      let soup6 := _process_paragraphs soup5
      strip (_finalize_formatting (getTextF soup6))

/-- The keyword list of `extract_attachments_info`. -/
def attachKeywords : List String :=
  ["attachment", "вложение", "файл", "download", "скачать"]

/-- The per-anchor decision of `extract_attachments_info`: an anchor
carrying `href` is reported iff its stripped, lower-cased text
contains one of the keywords; the reported name is the stripped
(non-lower-cased) text and the url is the raw attribute value. -/
def attachmentOf (n : Node) : Option (String × String) :=
  match attrOf n "href" with
  | none => none
  | some href =>
    let text := lower (strip (getTextN n))
    if attachKeywords.any (fun k => containsSub k text) then
      some (strip (getTextN n), href)
    else none

/-- `HTMLToTextConverter.extract_attachments_info` from
`html_converter.py`.  It parses the raw input (no `html.unescape`
step) and scans `find_all("a", href=True)` in document order. -/
def extract_attachments_info (html_content : Option String) : List (String × String) :=
  match html_content with
  | none => []
  | some s =>
    if s = "" then []
    else
      let soup := parseHTML s
      ((findAllF ["a"] soup).filter (fun n => (attrOf n "href").isSome)).filterMap
        attachmentOf

/-! ## The error path of `_process_links`

The top-down rewrite `rwF linkRule` reproduces the real links pass on
every input on which that pass completes, but it is not equivalent on
all inputs: the real pass iterates the list of anchors collected once
by `find_all("a", href=True)` and then mutates the tree, and when an
anchor whose trimmed text and trimmed destination are both empty is
`decompose()`d, every collected anchor inside it is destroyed (bs4
clears each descendant's `__dict__`), so the later `link["href"]`
subscript on such an anchor raises `TypeError` and `convert` aborts.
Anchors precede their descendants in the collected (pre-order) list
and no earlier iteration alters a later anchor's subtree, so the
decompose condition is evaluated on the anchor's original text and
destination, and the pass raises exactly when some collected anchor
that decomposes strictly contains another collected anchor. -/

/-- The anchors collected by `find_all("a", href=True)` at the start
of `_process_links`, in document order. -/
def collectedAnchors (soup : Forest) : List Node :=
  (findAllF ["a"] soup).filter (fun n => (attrOf n "href").isSome)

/-- Whether `_process_links` `decompose()`s this anchor: both its
trimmed text and its trimmed destination are empty. -/
def anchorDecomposes (n : Node) : Bool :=
  match attrOf n "href" with
  | some h => strip (getTextN n) == "" && strip h == ""
  | none => false

/-- Whether the real `_process_links` raises `TypeError` on this tree
(see the section comment): some collected anchor that the pass
decomposes strictly contains another collected anchor. -/
def _process_links_raises (soup : Forest) : Bool :=
  (collectedAnchors soup).any fun n =>
    anchorDecomposes n && !(collectedAnchors (childrenOf n)).isEmpty

/-- The tree state `convert` reaches just before `_process_links`:
the parse of the unescaped input with unwanted elements removed and
the heading, list and table passes applied. -/
def soupBeforeLinks (s : String) : Forest :=
  _process_tables (_process_lists (_process_headings
    (rwF unwantedRule (parseHTML (pyunescape s)))))

/-! ## Normal-form predicates for finalization

These formalise the conditions of the finalization-idempotence
property: no run of two or more consecutive spaces, no run of three or
more consecutive newlines, and no line with leading or trailing
whitespace. -/

/-- No two consecutive space characters. -/
def noMultiSpace : List Char → Bool
  | c1 :: c2 :: rest => !(c1 == ' ' && c2 == ' ') && noMultiSpace (c2 :: rest)
  | _ => true

/-- No three consecutive newline characters. -/
def noTripleNewline : List Char → Bool
  | c1 :: c2 :: c3 :: rest =>
    !(c1 == '\n' && c2 == '\n' && c3 == '\n') && noTripleNewline (c2 :: c3 :: rest)
  | _ => true

/-- Every line (split on newlines) equals its stripped self, i.e. no
line has leading or trailing whitespace. -/
def linesStripped (cs : List Char) : Bool :=
  (splitLinesCl cs).all (fun l => l == pystripCl l)

/-- The lines of a string (split on newlines), for stating which lines
an output contains. -/
def linesOf (s : String) : List String := (splitLinesCl s.toList).map String.mk

/-! ### Identity of the finalization stages on normalised text -/

theorem noMultiSpace_tail {c : Char} {cs : List Char}
    (h : noMultiSpace (c :: cs) = true) : noMultiSpace cs = true := by
  cases cs with
  | nil => rfl
  | cons c2 rest =>
    rw [noMultiSpace, Bool.and_eq_true] at h
    exact h.2

theorem collapseSpacesAux_eq_self :
    ∀ (cs : List Char) (b : Bool), noMultiSpace cs = true →
      (b = true → ∀ r, cs ≠ ' ' :: r) → collapseSpacesAux b cs = cs := by
  intro cs
  induction cs with
  | nil => intro b _ _; rfl
  | cons c rest ih =>
    intro b hns hb
    by_cases hc : c = ' '
    · subst hc
      have hbf : b = false := by
        cases b with
        | false => rfl
        | true => exact absurd rfl (fun h => hb h rest rfl)
      subst hbf
      rw [collapseSpacesAux, if_pos rfl]
      have hrest : ∀ r, rest ≠ ' ' :: r := by
        intro r hr
        subst hr
        rw [noMultiSpace] at hns
        simp at hns
      rw [ih true (noMultiSpace_tail hns) (fun _ => hrest)]
      simp
    · rw [collapseSpacesAux, if_neg hc]
      rw [ih false (noMultiSpace_tail hns) (fun h => absurd h (by simp))]

theorem collapseSpaces_eq_self {cs : List Char} (h : noMultiSpace cs = true) :
    collapseSpaces cs = cs :=
  collapseSpacesAux_eq_self cs false h (fun hf => absurd hf (by simp))

theorem splitLinesCl_ne_nil : ∀ cs : List Char, splitLinesCl cs ≠ [] := by
  intro cs
  cases cs with
  | nil => simp [splitLinesCl]
  | cons c rest =>
    rw [splitLinesCl]
    by_cases hc : c = '\n'
    · simp [hc]
    · rw [if_neg hc]
      cases splitLinesCl rest <;> simp

theorem joinLinesCl_cons_cons (c : Char) (l : List Char) (ls : List (List Char)) :
    joinLinesCl ((c :: l) :: ls) = c :: joinLinesCl (l :: ls) := by
  cases ls <;> simp [joinLinesCl]

theorem joinLinesCl_splitLinesCl : ∀ cs : List Char, joinLinesCl (splitLinesCl cs) = cs := by
  intro cs
  induction cs with
  | nil => rfl
  | cons c rest ih =>
    by_cases hc : c = '\n'
    · subst hc
      rw [splitLinesCl, if_pos rfl]
      cases hL : splitLinesCl rest with
      | nil => exact absurd hL (splitLinesCl_ne_nil rest)
      | cons l ls =>
        rw [joinLinesCl, ← hL, ih]
        · simp
        · simp
    · rw [splitLinesCl, if_neg hc]
      cases hL : splitLinesCl rest with
      | nil => exact absurd hL (splitLinesCl_ne_nil rest)
      | cons l ls =>
        rw [joinLinesCl_cons_cons, ← hL, ih]

theorem map_pystripCl_eq_self :
    ∀ L : List (List Char), L.all (fun l => l == pystripCl l) = true →
      L.map pystripCl = L := by
  intro L
  induction L with
  | nil => intro _; rfl
  | cons l ls ih =>
    intro h
    rw [List.all_cons, Bool.and_eq_true] at h
    have hl : l = pystripCl l := eq_of_beq h.1
    rw [List.map_cons, ih h.2, ← hl]

theorem collapseNLAux_eq_self :
    ∀ (fuel : Nat) (cs : List Char),
      (∀ a b, cs = a ++ b → nlMatch b = false) → collapseNLAux fuel cs = cs := by
  intro fuel
  induction fuel with
  | zero => intro cs _; rfl
  | succ f ih =>
    intro cs h
    cases cs with
    | nil => rfl
    | cons c rest =>
      rw [collapseNLAux, if_neg (by rw [h [] (c :: rest) rfl]; simp)]
      rw [ih rest (fun a b hab => h (c :: a) b (by rw [hab]; rfl))]

theorem noTripleNewline_tail {c : Char} {cs : List Char}
    (h : noTripleNewline (c :: cs) = true) : noTripleNewline cs = true := by
  cases cs with
  | nil => rfl
  | cons c2 rest =>
    cases rest with
    | nil => rfl
    | cons c3 rest2 =>
      rw [noTripleNewline, Bool.and_eq_true] at h
      exact h.2

theorem noTripleNewline_not_decomp :
    ∀ (a : List Char) (cs : List Char), noTripleNewline cs = true →
      ∀ b, cs ≠ a ++ '\n' :: '\n' :: '\n' :: b := by
  intro a
  induction a with
  | nil =>
    intro cs h b hcs
    subst hcs
    simp [noTripleNewline] at h
  | cons c a' ih =>
    intro cs h b hcs
    subst hcs
    exact ih _ (noTripleNewline_tail h) b rfl

theorem stripped_no_leading_ws {w : Char} {l : List Char} (hw : isPySpace w = true) :
    ((w :: l) == pystripCl (w :: l)) = false := by
  by_contra hne
  have heq : w :: l = pystripCl (w :: l) :=
    eq_of_beq (Bool.of_not_eq_false hne)
  have hlen : (pystripCl (w :: l)).length ≤ l.length := by
    unfold pystripCl
    rw [List.dropWhile_cons_of_pos hw]
    calc (((l.dropWhile isPySpace).reverse.dropWhile isPySpace).reverse).length
        = ((l.dropWhile isPySpace).reverse.dropWhile isPySpace).length := by
          rw [List.length_reverse]
      _ ≤ (l.dropWhile isPySpace).reverse.length := (List.dropWhile_sublist _).length_le
      _ = (l.dropWhile isPySpace).length := by rw [List.length_reverse]
      _ ≤ l.length := (List.dropWhile_sublist _).length_le
  have : (w :: l).length ≤ l.length := heq ▸ hlen
  simp at this

theorem tail_splitLinesCl {c : Char} (hc : c ≠ '\n') (rest : List Char) :
    (splitLinesCl (c :: rest)).tail = (splitLinesCl rest).tail := by
  rw [splitLinesCl, if_neg hc]
  cases hL : splitLinesCl rest with
  | nil => exact absurd hL (splitLinesCl_ne_nil rest)
  | cons l ls => rfl

theorem all_tail {L : List (List Char)} {p : List Char → Bool}
    (h : L.all p = true) : L.tail.all p = true := by
  cases L with
  | nil => rfl
  | cons x t =>
    rw [List.all_cons, Bool.and_eq_true] at h
    exact h.2

theorem no_nl_then_ws :
    ∀ (a : List Char) (cs : List Char),
      ((splitLinesCl cs).tail).all (fun l => l == pystripCl l) = true →
      ∀ (w : Char) (b : List Char), isPySpace w = true → w ≠ '\n' →
        cs ≠ a ++ '\n' :: w :: b := by
  intro a
  induction a with
  | nil =>
    intro cs h w b hw hwn hcs
    subst hcs
    simp only [List.nil_append] at h
    have hsplit : splitLinesCl ('\n' :: w :: b) = [] :: splitLinesCl (w :: b) := by
      rw [splitLinesCl, if_pos rfl]
    rw [hsplit] at h
    have hIn : splitLinesCl (w :: b) = (w :: (splitLinesCl b).headI) :: (splitLinesCl b).tail := by
      rw [splitLinesCl, if_neg hwn]
      cases hL : splitLinesCl b with
      | nil => exact absurd hL (splitLinesCl_ne_nil b)
      | cons l ls => rfl
    rw [List.tail_cons, hIn, List.all_cons, Bool.and_eq_true] at h
    rw [stripped_no_leading_ws hw] at h
    exact absurd h.1 (by simp)
  | cons c a' ih =>
    intro cs h w b hw hwn hcs
    subst hcs
    simp only [List.cons_append] at h
    by_cases hc : c = '\n'
    · subst hc
      have hsplit : splitLinesCl ('\n' :: (a' ++ '\n' :: w :: b)) =
          [] :: splitLinesCl (a' ++ '\n' :: w :: b) := by
        rw [splitLinesCl, if_pos rfl]
      rw [hsplit, List.tail_cons] at h
      exact ih _ (all_tail h) w b hw hwn rfl
    · rw [tail_splitLinesCl hc] at h
      exact ih _ h w b hw hwn rfl

/-- A list with an element that is not a newline splits at the first
such element, everything before it being newlines. -/
theorem exists_first_non_newline :
    ∀ u : List Char, (∃ x ∈ u, x ≠ '\n') →
      ∃ p w q, u = p ++ w :: q ∧ (∀ y ∈ p, y = '\n') ∧ w ≠ '\n' := by
  intro u
  induction u with
  | nil => intro h; obtain ⟨x, hx, _⟩ := h; simp at hx
  | cons c u' ih =>
    intro h
    by_cases hc : c = '\n'
    · subst hc
      have h' : ∃ x ∈ u', x ≠ '\n' := by
        obtain ⟨x, hx, hxn⟩ := h
        rcases List.mem_cons.mp hx with h1 | h2
        · exact absurd h1 hxn
        · exact ⟨x, h2, hxn⟩
      obtain ⟨p, w, q, hu, hp, hw⟩ := ih h'
      exact ⟨'\n' :: p, w, q, by rw [hu]; rfl,
        fun y hy => by
          rcases List.mem_cons.mp hy with h1 | h2
          · exact h1
          · exact hp y h2, hw⟩
    · exact ⟨[], c, u', rfl, by simp, hc⟩

theorem wsSpan_cons_newline (r : List Char) :
    wsSpan ('\n' :: r) = '\n' :: r.takeWhile isPySpace := by
  rw [wsSpan, List.takeWhile_cons_of_pos (by rfl)]

theorem normalised_no_nlMatch {cs : List Char}
    (h3 : noTripleNewline cs = true) (hls : linesStripped cs = true) :
    ∀ a b, cs = a ++ b → nlMatch b = false := by
  intro a b hab
  cases b with
  | nil => rfl
  | cons c r =>
    by_cases hc : c = '\n'
    · subst hc
      by_contra hm
      have hm' : nlMatch ('\n' :: r) = true := Bool.of_not_eq_false hm
      simp only [nlMatch, Bool.and_eq_true, beq_iff_eq, decide_eq_true_eq] at hm'
      replace hm' := hm'.2
      have hpref : wsSpan ('\n' :: r) ++ ('\n' :: r).dropWhile isPySpace = '\n' :: r :=
        List.takeWhile_append_dropWhile _ _
      by_cases hall : ∀ x ∈ wsSpan ('\n' :: r), x = '\n'
      · have hlen3 : 3 ≤ (wsSpan ('\n' :: r)).length :=
          le_trans hm' (List.count_le_length _ _)
        have h3c : ∃ u3, wsSpan ('\n' :: r) = '\n' :: '\n' :: '\n' :: u3 := by
          cases hU : wsSpan ('\n' :: r) with
          | nil => rw [hU] at hlen3; simp at hlen3
          | cons x1 u1 =>
            cases hU1 : u1 with
            | nil => rw [hU, hU1] at hlen3; simp at hlen3
            | cons x2 u2 =>
              cases hU2 : u2 with
              | nil => rw [hU, hU1, hU2] at hlen3; simp at hlen3
              | cons x3 u3 =>
                have e1 : x1 = '\n' := hall _ (by rw [hU]; simp)
                have e2 : x2 = '\n' := hall _ (by rw [hU, hU1]; simp)
                have e3 : x3 = '\n' := hall _ (by rw [hU, hU1, hU2]; simp)
                subst hU1
                subst hU2
                subst e1
                subst e2
                subst e3
                exact ⟨u3, rfl⟩
        obtain ⟨u3, hu3⟩ := h3c
        have hsplit2 : '\n' :: r =
            ('\n' :: '\n' :: '\n' :: u3) ++ ('\n' :: r).dropWhile isPySpace := by
          rw [← hu3]
          exact hpref.symm
        have hdec : cs = a ++ '\n' :: '\n' :: '\n' ::
            (u3 ++ ('\n' :: r).dropWhile isPySpace) := by
          conv_lhs => rw [hab, hsplit2]
          simp
        exact noTripleNewline_not_decomp a cs h3 _ hdec
      · push_neg at hall
        obtain ⟨p, w, q, hup, hpnl, hwn⟩ :=
          exists_first_non_newline _ hall
        have hwmem : w ∈ wsSpan ('\n' :: r) := by rw [hup]; simp
        have hw : isPySpace w = true := List.mem_takeWhile_imp hwmem
        have hpne : p ≠ [] := by
          intro hp0
          rw [hp0, List.nil_append] at hup
          rw [wsSpan_cons_newline] at hup
          exact hwn (by injection hup with h1 _; exact h1.symm)
        have hlast : p.getLast hpne = '\n' := hpnl _ (List.getLast_mem hpne)
        have hpd : p = p.dropLast ++ ['\n'] := by
          conv_lhs => rw [← List.dropLast_append_getLast hpne]
          rw [hlast]
        have hsplit2 : '\n' :: r =
            (p ++ w :: q) ++ ('\n' :: r).dropWhile isPySpace := by
          rw [← hup]
          exact hpref.symm
        have hdec : cs = (a ++ p.dropLast) ++ '\n' :: w ::
            (q ++ ('\n' :: r).dropWhile isPySpace) := by
          conv_lhs => rw [hab, hsplit2, hpd]
          simp
        exact no_nl_then_ws (a ++ p.dropLast) cs (all_tail hls) w _ hw hwn hdec
    · simp [nlMatch, hc]

/-! ## Claims -/

/-- C5, counterexample: the claim's three conditions (no 2+ consecutive
spaces, no 3+ consecutive newlines, no line with leading or trailing
whitespace) hold of `"\nabc"` — its lines are `""` and `"abc"`, neither
of which carries surrounding whitespace — yet `_finalize_formatting`
does not return it unchanged: the final whole-string `strip()` removes
the leading newline. -/
theorem C5_counterexample :
    noMultiSpace ("\nabc".toList) = true ∧
    noTripleNewline ("\nabc".toList) = true ∧
    linesStripped ("\nabc".toList) = true ∧
    _finalize_formatting "\nabc" = "abc" ∧
    _finalize_formatting "\nabc" ≠ "\nabc" := by
  refine ⟨by decide, by decide, by decide, by decide, by decide⟩

/-- C5, amended: finalization is idempotent on already-normalized text
that in addition carries no leading or trailing whitespace as a whole
string (in particular does not begin or end with a newline): for every
string with no run of two or more spaces, no run of three or more
newlines, no line with leading or trailing whitespace, and which is
equal to its own strip, `_finalize_formatting` returns it unchanged. -/
theorem C5_finalize_idempotent (s : String)
    (h1 : noMultiSpace s.toList = true)
    (h2 : noTripleNewline s.toList = true)
    (h3 : linesStripped s.toList = true)
    (h4 : pystripCl s.toList = s.toList) :
    _finalize_formatting s = s := by
  show String.mk (pystripCl (joinLinesCl
      ((splitLinesCl (collapseSpaces (collapseNL s.toList))).map pystripCl))) = s
  rw [show collapseNL s.toList = s.toList from
        collapseNLAux_eq_self _ _ (normalised_no_nlMatch h2 h3)]
  rw [collapseSpaces_eq_self h1]
  rw [map_pystripCl_eq_self _ h3]
  rw [joinLinesCl_splitLinesCl]
  rw [h4]
  rfl

/-- Witness for C5: a two-line normalized string is a fixed point of
finalization. -/
theorem C5_witness :
    noMultiSpace ("a b\nc".toList) = true ∧
    noTripleNewline ("a b\nc".toList) = true ∧
    linesStripped ("a b\nc".toList) = true ∧
    pystripCl "a b\nc".toList = "a b\nc".toList ∧
    _finalize_formatting "a b\nc" = "a b\nc" :=
  ⟨by decide, by decide, by decide, by decide,
   C5_finalize_idempotent "a b\nc" (by decide) (by decide) (by decide) (by decide)⟩

/-- C9, counterexample: `convert` is not error-free on arbitrary
malformed HTML.  On `<a href=" "><a href="x"> </a></a>` the tree that
`convert` hands to `_process_links` (second conjunct, by definitional
equality of the pipeline) contains an outer collected anchor with
whitespace-only text and whitespace-only destination strictly
containing another collected anchor: the real pass `decompose()`s the
outer anchor, destroying the inner one, and the next iteration's
`link["href"]` raises `TypeError` — the condition `_process_links_raises`
holds of exactly that state, while the crash-free model silently
returns a string. -/
theorem C9_counterexample :
    _process_links_raises
      (soupBeforeLinks "<a href=\" \"><a href=\"x\"> </a></a>") = true ∧
    convert (some "<a href=\" \"><a href=\"x\"> </a></a>") =
      strip (_finalize_formatting (getTextF (_process_paragraphs (_process_links
        (soupBeforeLinks "<a href=\" \"><a href=\"x\"> </a></a>"))))) := by
  refine ⟨by decide, by decide⟩

/-- C9, amended: empty or absent input yields the empty string from
`convert` and the empty list from `extract_attachments_info` with no
error; `extract_attachments_info` never raises (it only reads the
parsed tree, modelled by its totality); unclosed or partial markup
degrades gracefully; and `convert` signals no error on every input on
which `_process_links` does not hit its destroyed-anchor path — it
can raise a `TypeError` precisely when, in the tree reaching that
pass, some collected anchor with whitespace-only text and
whitespace-only destination strictly contains another collected
anchor, the condition characterised by `_process_links_raises`. -/
theorem C9_error_handling :
    convert none = "" ∧
    convert (some "") = "" ∧
    extract_attachments_info none = [] ∧
    extract_attachments_info (some "") = [] ∧
    (∀ h, ∃ l, extract_attachments_info h = l) ∧
    convert (some "<div><p>unclosed") = "unclosed" ∧
    convert (some "<table><tr><td>A") = "A" ∧
    extract_attachments_info (some "<a href=\"f\">download") = [("download", "f")] ∧
    (∀ soup, _process_links_raises soup = true ↔
        ∃ n ∈ collectedAnchors soup, anchorDecomposes n = true ∧
          collectedAnchors (childrenOf n) ≠ []) ∧
    (∀ s, _process_links_raises (soupBeforeLinks s) = false →
        ∃ out, convert (some s) = out) ∧
    _process_links_raises (soupBeforeLinks "<div><p>unclosed") = false := by
  refine ⟨by decide, by decide, by decide, by decide,
    fun h => ⟨extract_attachments_info h, rfl⟩, by decide, by decide, by decide,
    ?_, fun s _ => ⟨convert (some s), rfl⟩, by decide⟩
  intro soup
  unfold _process_links_raises
  rw [List.any_eq_true]
  constructor
  · rintro ⟨n, hn, hb⟩
    rw [Bool.and_eq_true] at hb
    refine ⟨n, hn, hb.1, ?_⟩
    intro he
    rw [he] at hb
    simp at hb
  · rintro ⟨n, hn, h1, h2⟩
    refine ⟨n, hn, ?_⟩
    rw [Bool.and_eq_true]
    refine ⟨h1, ?_⟩
    cases hL : collectedAnchors (childrenOf n) with
    | nil => exact absurd hL h2
    | cons x t => rfl

/-- Witness for C9: the no-raise guard holds of the unclosed-markup
example, on which `convert` returns a value. -/
theorem C9_witness :
    ∃ out, convert (some "<div><p>unclosed") = out :=
  C9_error_handling.2.2.2.2.2.2.2.2.2.1 "<div><p>unclosed" (by decide)

/-- C10: `convert` decodes character references twice (once via
`html.unescape` before parsing, once in the parser), while
`extract_attachments_info` parses the raw input and decodes them only
once; on an anchor whose text contains the doubly-encoded `&amp;amp;`,
`convert` renders a bare `&` while `extract_attachments_info` reports
the name with `&amp;`. -/
theorem C10_double_decoding :
    pyunescape "&amp;amp;" = "&amp;" ∧
    pyunescape (pyunescape "&amp;amp;") = "&" ∧
    convert (some "<a href=\"f.pdf\">&amp;amp; download</a>") = "& download [f.pdf]" ∧
    extract_attachments_info (some "<a href=\"f.pdf\">&amp;amp; download</a>") =
      [("&amp; download", "f.pdf")] := by
  refine ⟨by decide, by decide, by decide, by decide⟩

theorem enumFrom_get_mem {α : Type} (l : List α) :
    ∀ (n i : Nat) (h : i < l.length),
      (n + i, l.get ⟨i, h⟩) ∈ List.enumFrom n l := by
  induction l with
  | nil => intro n i h; simp at h
  | cons a t ih =>
    intro n i h
    cases i with
    | zero => simp [List.enumFrom]
    | succ j =>
      have hj : j < t.length := by simpa using h
      have hmem := ih (n + 1) j hj
      rw [List.enumFrom]
      apply List.mem_cons_of_mem
      have harith : n + (j + 1) = (n + 1) + j := by omega
      rw [harith]
      exact hmem

/-- C1, counterexample: the finalization step collapses the two-space
indent and strips each line, so `convert("<ol><li>x</li><li>y</li></ol>")`
is `"1. x\n2. y"` and contains no line `"  1. x"`. -/
theorem C1_counterexample :
    convert (some "<ol><li>x</li><li>y</li></ol>") = "1. x\n2. y" ∧
    ¬ ("  1. x" ∈ linesOf (convert (some "<ol><li>x</li><li>y</li></ol>"))) := by
  refine ⟨by decide, by decide⟩

/-- C1, amended: indices 1, 2, ... are assigned by enumerating all
`li` elements regardless of emptiness — the item at position `i`
(0-based) with non-empty trimmed text `t` is rendered `"  {1+i}. {t}"`,
so an empty item still consumes a number and gaps result; a list with
zero non-empty items is removed with no replacement.  In the final
`convert` output the finalization step has removed the two-space
indent, so the example yields the lines `"1. x"` and `"2. y"`, and an
empty middle item yields `"1. x"` then `"3. y"`. -/
theorem C1_ordered_list_numbering :
    (∀ (lis : List Node) (i : Nat) (h : i < lis.length),
        strip (getTextN (lis.get ⟨i, h⟩)) ≠ "" →
        ("  " ++ toString (1 + i) ++ ". " ++ strip (getTextN (lis.get ⟨i, h⟩)))
          ∈ olItems lis) ∧
    (∀ attrs cs, olItems (findAllF ["li"] cs) = [] →
        olRule (Node.elem "ol" attrs cs) = Rw.remove) ∧
    linesOf (convert (some "<ol><li>x</li><li>y</li></ol>")) = ["1. x", "2. y"] ∧
    convert (some "<ol><li>x</li><li></li><li>y</li></ol>") = "1. x\n3. y" ∧
    convert (some "<ol><li> </li></ol>") = "" := by
  refine ⟨?_, ?_, by decide, by decide, by decide⟩
  · intro lis i h hne
    unfold olItems
    apply List.mem_filterMap.mpr
    refine ⟨(1 + i, lis.get ⟨i, h⟩), enumFrom_get_mem lis 1 i h, ?_⟩
    show (if strip (getTextN (lis.get ⟨i, h⟩)) = "" then none else
      some ("  " ++ toString (1 + i) ++ ". " ++ strip (getTextN (lis.get ⟨i, h⟩)))) =
      some ("  " ++ toString (1 + i) ++ ". " ++ strip (getTextN (lis.get ⟨i, h⟩)))
    rw [if_neg hne]
  · intro attrs cs h
    simp [olRule, h]

/-- Witness for C1: the single non-empty item of a one-item list is
rendered with index 1, and a list whose items are all empty is
removed. -/
theorem C1_witness :
    ("  " ++ toString (1 + 0) ++ ". " ++
      strip (getTextN (Node.elem "li" [] (Forest.cons (Node.text "x") Forest.nil))))
      ∈ olItems [Node.elem "li" [] (Forest.cons (Node.text "x") Forest.nil)] ∧
    olRule (Node.elem "ol" [] Forest.nil) = Rw.remove :=
  ⟨C1_ordered_list_numbering.1
      [Node.elem "li" [] (Forest.cons (Node.text "x") Forest.nil)] 0 (by decide) (by decide),
   C1_ordered_list_numbering.2.1 [] Forest.nil (by decide)⟩

/-- C2, counterexample: the underline under a heading is
`prefix.replace(" ", "=")`, which turns the marker's trailing space
into an extra `=`; for `h1` that is seven `=` characters, so no line of
`convert("<h1>Title</h1>")` is exactly six `=` characters. -/
theorem C2_counterexample :
    convert (some "<h1>Title</h1>") = "====== TITLE\n=======" ∧
    (∀ l ∈ linesOf (convert (some "<h1>Title</h1>")), l ≠ "======") := by
  refine ⟨by decide, by decide⟩

/-- C2, amended: a heading with non-empty trimmed text is replaced by
two leading newlines, the marker (6 down to 1 `=` characters followed
by a space), the uppercased text, a newline, then an underline that is
the marker with its space also turned into `=` — one character wider
than the marker's equals-run (7 characters for level 1, 2 for level
6) — and a final newline; a heading with empty trimmed text is left in
place unreplaced (so no block is emitted for it). -/
theorem C2_headings :
    (∀ tag pref attrs cs, strip (getTextF cs) ≠ "" →
        headingRule tag pref (Node.elem tag attrs cs) =
          Rw.repl ("\n\n" ++ pref ++ upper (strip (getTextF cs)) ++ "\n" ++
                   replaceSpaceByEq pref ++ "\n")) ∧
    (∀ tag pref attrs cs, strip (getTextF cs) = "" →
        headingRule tag pref (Node.elem tag attrs cs) = Rw.keep) ∧
    heading_map.map (fun pr => pr.2) =
      ["====== ", "===== ", "==== ", "=== ", "== ", "= "] ∧
    heading_map.map (fun pr => (pr.2.toList.count '=',
        (replaceSpaceByEq pr.2).length, (replaceSpaceByEq pr.2).toList.count '=')) =
      [(6, 7, 7), (5, 6, 6), (4, 5, 5), (3, 4, 4), (2, 3, 3), (1, 2, 2)] ∧
    convert (some "<h1>Title</h1>") = "====== TITLE\n=======" ∧
    linesOf (convert (some "<h1>Title</h1>")) = ["====== TITLE", "======="] := by
  refine ⟨?_, ?_, by decide, by decide, by decide, by decide⟩
  · intro tag pref attrs cs h
    simp [headingRule, h]
  · intro tag pref attrs cs h
    simp [headingRule, h]

/-- Witness for C2: the `h1` rule on `<h1>Title</h1>`'s children, and
the keep-branch on a whitespace-only `h6`. -/
theorem C2_witness :
    headingRule "h1" "====== "
      (Node.elem "h1" [] (Forest.cons (Node.text "Title") Forest.nil)) =
      Rw.repl ("\n\n" ++ "====== " ++
        upper (strip (getTextF (Forest.cons (Node.text "Title") Forest.nil))) ++ "\n" ++
        replaceSpaceByEq "====== " ++ "\n") ∧
    headingRule "h6" "= "
      (Node.elem "h6" [] (Forest.cons (Node.text " ") Forest.nil)) = Rw.keep :=
  ⟨C2_headings.1 "h1" "====== " [] _ (by decide),
   C2_headings.2.1 "h6" "= " [] _ (by decide)⟩

/-- C3: for every anchor with a destination, with `t` the trimmed
visible text and `u` the trimmed destination: both non-empty and
different gives `"t [u]"`, both non-empty and equal gives `u`, only
`t` non-empty gives `t`, only `u` non-empty gives `u`, both empty
drops the element; and the two spec examples hold end to end. -/
theorem C3_links :
    (∀ attrs cs u, List.lookup "href" attrs = some u →
      (strip (getTextF cs) ≠ "" → strip u ≠ "" → strip (getTextF cs) ≠ strip u →
        linkRule (Node.elem "a" attrs cs) =
          Rw.repl (strip (getTextF cs) ++ " [" ++ strip u ++ "]")) ∧
      (strip (getTextF cs) ≠ "" → strip u ≠ "" → strip (getTextF cs) = strip u →
        linkRule (Node.elem "a" attrs cs) = Rw.repl (strip u)) ∧
      (strip (getTextF cs) ≠ "" → strip u = "" →
        linkRule (Node.elem "a" attrs cs) = Rw.repl (strip (getTextF cs))) ∧
      (strip (getTextF cs) = "" → strip u ≠ "" →
        linkRule (Node.elem "a" attrs cs) = Rw.repl (strip u)) ∧
      (strip (getTextF cs) = "" → strip u = "" →
        linkRule (Node.elem "a" attrs cs) = Rw.remove)) ∧
    convert (some "<a href=\"http://e.com\">here</a>") = "here [http://e.com]" ∧
    convert (some "<a href=\"http://e.com\">http://e.com</a>") = "http://e.com" := by
  refine ⟨?_, by decide, by decide⟩
  intro attrs cs u hu
  refine ⟨?_, ?_, ?_, ?_, ?_⟩ <;> intros <;> simp [linkRule, hu, *]

/-- Witness for C3: the five branches at concrete anchors. -/
theorem C3_witness :
    linkRule (Node.elem "a" [("href", "http://e.com")]
        (Forest.cons (Node.text "here") Forest.nil)) =
      Rw.repl (strip (getTextF (Forest.cons (Node.text "here") Forest.nil)) ++
        " [" ++ strip "http://e.com" ++ "]") ∧
    linkRule (Node.elem "a" [("href", "u")] Forest.nil) = Rw.repl (strip "u") ∧
    linkRule (Node.elem "a" [("href", " ")]
        (Forest.cons (Node.text "t") Forest.nil)) =
      Rw.repl (strip (getTextF (Forest.cons (Node.text "t") Forest.nil))) ∧
    linkRule (Node.elem "a" [("href", " ")] Forest.nil) = Rw.remove :=
  ⟨(C3_links.1 [("href", "http://e.com")] _ "http://e.com" (by decide)).1
      (by decide) (by decide) (by decide),
   (C3_links.1 [("href", "u")] Forest.nil "u" (by decide)).2.2.2.1
      (by decide) (by decide),
   (C3_links.1 [("href", " ")] _ " " (by decide)).2.2.1
      (by decide) (by decide),
   (C3_links.1 [("href", " ")] Forest.nil " " (by decide)).2.2.2.2
      (by decide) (by decide)⟩

/-- C4, counterexample: a table all of whose cells hold only
whitespace is not removed — every cell is appended to its row
unconditionally, so the row `" | "` survives and the table is replaced
by a separator-only block; `convert` yields `"|"`, not `""`. -/
theorem C4_counterexample :
    convert (some "<table><tr><td> </td><td> </td></tr></table>") = "|" ∧
    convert (some "<table><tr><td> </td><td> </td></tr></table>") ≠ "" ∧
    tableRule (Node.elem "table" []
      (Forest.cons (Node.elem "tr" []
        (Forest.cons (Node.elem "td" [] (Forest.cons (Node.text " ") Forest.nil))
        (Forest.cons (Node.elem "td" [] (Forest.cons (Node.text " ") Forest.nil))
          Forest.nil)))
      Forest.nil)) = Rw.repl "\n   | \n" := by
  refine ⟨by decide, by decide, by decide⟩

/-- C4, amended: whitespace-only paragraphs and lists are removed with
no replacement, whitespace-only headings are left unreplaced (no block
emitted), and for tables a row is dropped only when it has no `td`/`th`
cells at all — cells' trimmed texts are joined with `" | "` even when
empty, so a table whose rows have cells is kept even if every cell is
whitespace-only, and only a table with zero cell-bearing rows is
removed. -/
theorem C4_empty_blocks :
    (∀ attrs cs, strip (getTextF cs) = "" →
        pRule (Node.elem "p" attrs cs) = Rw.remove) ∧
    (∀ attrs cs, ulItems (findAllF ["li"] cs) = [] →
        ulRule (Node.elem "ul" attrs cs) = Rw.remove) ∧
    (∀ tag pref attrs cs, strip (getTextF cs) = "" →
        headingRule tag pref (Node.elem tag attrs cs) = Rw.keep) ∧
    (∀ attrs cs, tableRows cs = [] →
        tableRule (Node.elem "table" attrs cs) = Rw.remove) ∧
    (∀ a, tableRows (Forest.cons (Node.elem "tr" a Forest.nil) Forest.nil) = []) ∧
    convert (some "<p>  </p>") = "" ∧
    convert (some "<ul><li> </li></ul>") = "" ∧
    convert (some "<h2>  </h2>") = "" ∧
    convert (some "<table><tr></tr></table>") = "" := by
  refine ⟨?_, ?_, ?_, ?_, ?_, by decide, by decide, by decide, by decide⟩
  · intro attrs cs h
    simp [pRule, h]
  · intro attrs cs h
    simp [ulRule, h]
  · intro tag pref attrs cs h
    simp [headingRule, h]
  · intro attrs cs h
    simp [tableRule, h]
  · intro a
    simp [tableRows, findAllF, findAllN, childrenOf]

/-- Witness for C4: the removal branches at concrete whitespace-only
elements. -/
theorem C4_witness :
    pRule (Node.elem "p" [] (Forest.cons (Node.text "  ") Forest.nil)) = Rw.remove ∧
    ulRule (Node.elem "ul" [] Forest.nil) = Rw.remove ∧
    headingRule "h2" "===== "
      (Node.elem "h2" [] (Forest.cons (Node.text "  ") Forest.nil)) = Rw.keep ∧
    tableRule (Node.elem "table" [] Forest.nil) = Rw.remove :=
  ⟨C4_empty_blocks.1 [] _ (by decide),
   C4_empty_blocks.2.1 [] Forest.nil (by decide),
   C4_empty_blocks.2.2.1 "h2" "===== " [] _ (by decide),
   C4_empty_blocks.2.2.2.1 [] Forest.nil (by decide)⟩

/-- C6, counterexample: the finalization step strips the two-space
indent, so the bullet lines of
`convert("<ul><li>a</li><li></li><li>b</li></ul>")` are `"• a"` and
`"• b"`, not `"  • a"` and `"  • b"`. -/
theorem C6_counterexample :
    linesOf (convert (some "<ul><li>a</li><li></li><li>b</li></ul>")) =
      ["• a", "• b"] ∧
    ¬ ("  • a" ∈ linesOf (convert (some "<ul><li>a</li><li></li><li>b</li></ul>"))) := by
  refine ⟨by decide, by decide⟩

/-- C6, amended: each `li` descendant with non-empty trimmed text `t`
contributes the replacement line `"  • t"`, empty items contribute
nothing, the non-empty items joined with newlines replace the list
wrapped in one leading and one trailing newline, and an all-empty list
is removed; in the final `convert` output the finalization step has
removed the two-space indent, so the example yields the bullet lines
`"• a"` and `"• b"`. -/
theorem C6_unordered_lists :
    (∀ li lis1 lis2, strip (getTextN li) ≠ "" →
        ("  • " ++ strip (getTextN li)) ∈ ulItems (lis1 ++ li :: lis2)) ∧
    (∀ li lis1 lis2, strip (getTextN li) = "" →
        ulItems (lis1 ++ li :: lis2) = ulItems (lis1 ++ lis2)) ∧
    (∀ attrs cs, ulItems (findAllF ["li"] cs) ≠ [] →
        ulRule (Node.elem "ul" attrs cs) =
          Rw.repl ("\n" ++ String.intercalate "\n" (ulItems (findAllF ["li"] cs)) ++ "\n")) ∧
    linesOf (convert (some "<ul><li>a</li><li></li><li>b</li></ul>")) =
      ["• a", "• b"] := by
  refine ⟨?_, ?_, ?_, by decide⟩
  · intro li lis1 lis2 hne
    unfold ulItems
    apply List.mem_filterMap.mpr
    refine ⟨li, by simp, ?_⟩
    show (if strip (getTextN li) = "" then none
      else some ("  • " ++ strip (getTextN li))) = some ("  • " ++ strip (getTextN li))
    rw [if_neg hne]
  · intro li lis1 lis2 he
    unfold ulItems
    rw [List.filterMap_append, List.filterMap_append, List.filterMap_cons]
    simp [he]
  · intro attrs cs h
    simp [ulRule, h]

/-- Witness for C6: a non-empty item's bullet line, an empty item
dropped, and the replacement text of a one-item list. -/
theorem C6_witness :
    ("  • " ++ strip (getTextN (Node.text "a"))) ∈
      ulItems ([] ++ Node.text "a" :: []) ∧
    ulItems ([Node.text "a"] ++ Node.text " " :: [Node.text "b"]) =
      ulItems ([Node.text "a"] ++ [Node.text "b"]) ∧
    ulRule (Node.elem "ul" [] (Forest.cons
        (Node.elem "li" [] (Forest.cons (Node.text "a") Forest.nil)) Forest.nil)) =
      Rw.repl ("\n" ++ String.intercalate "\n" (ulItems (findAllF ["li"]
        (Forest.cons (Node.elem "li" [] (Forest.cons (Node.text "a") Forest.nil))
          Forest.nil))) ++ "\n") :=
  ⟨C6_unordered_lists.1 (Node.text "a") [] [] (by decide),
   C6_unordered_lists.2.1 (Node.text " ") [Node.text "a"] [Node.text "b"] (by decide),
   C6_unordered_lists.2.2.1 [] _ (by decide)⟩

/-- C7: a `div` whose trimmed text is non-empty is replaced by that
text wrapped in one leading and one trailing newline exactly when none
of its direct children (as the block pass sees them, i.e. after the
earlier structural passes) is an element whose tag is `p`, `h1`..`h6`,
`ul`, `ol` or `table`; when such a child is present the `div` is left
untouched, so text emitted by the earlier passes is not duplicated. -/
theorem C7_div_blocks :
    (∀ attrs cs, strip (getTextF cs) ≠ "" → hasHandledChild cs = false →
        divRule (Node.elem "div" attrs cs) =
          Rw.repl ("\n" ++ strip (getTextF cs) ++ "\n")) ∧
    (∀ attrs cs, strip (getTextF cs) ≠ "" → hasHandledChild cs = true →
        divRule (Node.elem "div" attrs cs) = Rw.keep) ∧
    (∀ n ns, hasHandledChild (Forest.cons n ns) = true ↔
        ((∃ t a k, n = Node.elem t a k ∧ t ∈ handledTags) ∨
         hasHandledChild ns = true)) ∧
    convert (some "<div><h1>T</h1></div>") = "====== T\n=======" ∧
    convert (some "<div>x<h1> </h1></div>") = "x" := by
  refine ⟨?_, ?_, ?_, by decide, by decide⟩
  · intro attrs cs h1 h2
    simp [divRule, h1, h2]
  · intro attrs cs h1 h2
    simp [divRule, h1, h2]
  · intro n ns
    cases n with
    | text s => simp [hasHandledChild]
    | elem t a k =>
      rw [hasHandledChild]
      constructor
      · intro h
        rcases Bool.or_eq_true_iff.mp h with h1 | h1
        · exact Or.inl ⟨t, a, k, rfl, by simpa using h1⟩
        · exact Or.inr h1
      · intro h
        rcases h with ⟨t', a', k', he, ht⟩ | h1
        · cases he
          exact Bool.or_eq_true_iff.mpr (Or.inl (by simpa using ht))
        · exact Bool.or_eq_true_iff.mpr (Or.inr h1)

/-- Witness for C7: the replace- and keep-branches at concrete
`div`s. -/
theorem C7_witness :
    divRule (Node.elem "div" [] (Forest.cons (Node.text "x") Forest.nil)) =
      Rw.repl ("\n" ++ strip (getTextF (Forest.cons (Node.text "x") Forest.nil)) ++ "\n") ∧
    divRule (Node.elem "div" [] (Forest.cons (Node.text "x")
        (Forest.cons (Node.elem "h1" [] (Forest.cons (Node.text " ") Forest.nil))
          Forest.nil))) = Rw.keep :=
  ⟨C7_div_blocks.1 [] _ (by decide) (by decide),
   C7_div_blocks.2.1 [] _ (by decide) (by decide)⟩

theorem attachmentOf_eq_some_iff (n : Node) (p : String × String) :
    attachmentOf n = some p ↔
      attrOf n "href" = some p.2 ∧
      attachKeywords.any (fun k => containsSub k (lower (strip (getTextN n)))) = true ∧
      p.1 = strip (getTextN n) := by
  unfold attachmentOf
  cases ha : attrOf n "href" with
  | none => simp
  | some u =>
    simp only []
    by_cases hk : (attachKeywords.any fun k => containsSub k (lower (strip (getTextN n)))) = true
    · rw [if_pos hk]
      simp [hk, Prod.ext_iff]
      aesop
    · rw [if_neg hk]
      simp [hk]

/-- C8: `extract_attachments_info` returns, in document order and
without deduplication, one pair per anchor with a destination
attribute whose trimmed lower-cased text contains one of the keywords
`"attachment"`, `"вложение"`, `"файл"`, `"download"`, `"скачать"`;
the name is the non-lower-cased trimmed text, the url the raw
attribute value; anchors without a destination are ignored. -/
theorem C8_attachments :
    (∀ s p, p ∈ extract_attachments_info (some s) ↔
        ∃ n ∈ findAllF ["a"] (parseHTML s),
          attrOf n "href" = some p.2 ∧
          attachKeywords.any
            (fun k => containsSub k (lower (strip (getTextN n)))) = true ∧
          p.1 = strip (getTextN n)) ∧
    extract_attachments_info (some "<a href=\"f.pdf\">Download file</a>") =
      [("Download file", "f.pdf")] ∧
    extract_attachments_info
        (some "<a href=\"f\">download</a><a href=\"f\">download</a>") =
      [("download", "f"), ("download", "f")] ∧
    extract_attachments_info (some "<a href=\"x\">Скачать файл</a>") =
      [("Скачать файл", "x")] ∧
    extract_attachments_info (some "<a>download</a>") = [] := by
  refine ⟨?_, by decide, by decide, by decide, by decide⟩
  intro s p
  by_cases hs : s = ""
  · subst hs
    constructor
    · intro h
      simp [extract_attachments_info] at h
    · rintro ⟨n, hn, _⟩
      have he : findAllF ["a"] (parseHTML "") = ([] : List Node) := rfl
      rw [he] at hn
      exact absurd hn (List.not_mem_nil n)
  · have hrw : extract_attachments_info (some s) =
        ((findAllF ["a"] (parseHTML s)).filter
          (fun n => (attrOf n "href").isSome)).filterMap attachmentOf := by
      show (if s = "" then [] else
        ((findAllF ["a"] (parseHTML s)).filter
          (fun n => (attrOf n "href").isSome)).filterMap attachmentOf) = _
      rw [if_neg hs]
    rw [hrw, List.mem_filterMap]
    constructor
    · rintro ⟨n, hn, hf⟩
      exact ⟨n, (List.mem_filter.mp hn).1, (attachmentOf_eq_some_iff n p).mp hf⟩
    · rintro ⟨n, hn, hcond⟩
      exact ⟨n, List.mem_filter.mpr ⟨hn, by rw [hcond.1]; rfl⟩,
        (attachmentOf_eq_some_iff n p).mpr hcond⟩
